import Mathlib

/-!
Shallow embedding of `src/autostereogram.py`.

The program builds a single-image autostereogram from a grayscale depth
map.  Pixels are RGB triples; buffers made by `Image.new("RGB", ...)`
start out black, i.e. `(0, 0, 0)`.  The depth map is read after
`convert('I')`, so it is embedded as its integer intensity grid.  Python
exceptions are embedded with `Except`; the only exception the algorithm
itself can raise is `ZeroDivisionError`.
-/

namespace Stereogram

abbrev Pixel := Nat × Nat × Nat

abbrev PixFn := Nat → Nat → Pixel

/-- An RGB image: dimensions plus a dense pixel grid. -/
structure Img where
  width : Nat
  height : Nat
  px : PixFn

/-- A depth map after `convert('I')`: a per-pixel integer intensity grid
(0–255 for 8-bit sources). -/
structure DepthMap where
  width : Nat
  height : Nat
  intensity : Nat → Nat → Nat

/-- Python errors relevant to the algorithm.  `invalidInput` is modelled
from the spec: spec §7 names an `InvalidInput` error kind, but the source
defines no such error and never raises it. -/
inductive PyError where
  | zeroDivisionError : PyError
  | invalidInput : PyError
deriving DecidableEq

/-- `pix[x, y] = p` on a pixel grid. -/
def setPx (f : PixFn) (x0 y0 : Nat) (p : Pixel) : PixFn :=
  fun x y => if x = x0 ∧ y = y0 then p else f x y

/-- `randint(0, 256)` draws an integer from `[0, 256]`, both endpoints
included.  An oracle records the three draws made for each pixel; an
oracle is consistent with `randint(0, 256)` exactly when every recorded
channel is at most 256. -/
def randint_oracle (rand : PixFn) : Prop :=
  ∀ x y : Nat, (rand x y).1 ≤ 256 ∧ (rand x y).2.1 ≤ 256 ∧ (rand x y).2.2 ≤ 256

/-- `gen_random_dot_strip(width, height)`: a strip whose pixel `(x, y)` is
the triple of `randint(0, 256)` draws recorded by the oracle at `(x, y)`. -/
def gen_random_dot_strip (rand : PixFn) (width height : Nat) : Img :=
  ⟨width, height, fun x y => rand x y⟩

/-- `gen_strip_from_tile(tile, width, height)`: pixel `(x, y)` is
`tile_pixels[x % tile_width, y % tile_height]`.  When the tile has a zero
dimension, the first loop iteration raises `ZeroDivisionError` in
`x % tile_width` or `y % tile_height`; the loop body runs iff `width > 0`
and `height > 0`. -/
def gen_strip_from_tile (tile : Img) (width height : Nat) : Except PyError Img :=
  if 0 < width ∧ 0 < height ∧ (tile.width = 0 ∨ tile.height = 0) then
    Except.error PyError.zeroDivisionError
  else
    Except.ok ⟨width, height, fun x y => tile.px (x % tile.width) (y % tile.height)⟩

/-- `num_strips = int(depth_map_width * .75 / levels)`.  `w * 0.75 = 3w/4`
is exact in binary floating point, and for image-scale magnitudes the
truncated float quotient agrees with the exact rational floor
`3w / (4 * levels)` rounded down (the exact quotient is at least
`1 / (4 * levels)` away from any integer it does not equal, far more than
the float rounding error), so the embedding uses the exact floor.
`levels = 0` is the `ZeroDivisionError` case, handled at the call site. -/
def num_strips (w levels : Nat) : Nat := 3 * w / (4 * levels)

/-- `strip_width = depth_map_width // num_strips`. -/
def strip_width (w levels : Nat) : Nat := w / num_strips w levels

/-- `depth_offset = round(depth_pixels[x, y] * levels / 255.0)` as a
function of the intensity `v` and `levels`.  `(2 * v * levels + 255) / 510`
rounded down is the integer nearest to `v * levels / 255`.  An exact tie
`v * levels / 255 = k + 1/2` is impossible: it would force the even number
`2 * v * levels` to equal the odd number `255 * (2k + 1)`.  Hence
round-half-to-even (Python `round`), round-half-up and round-to-nearest
all agree here, and float rounding (the exact quotient is at least `1/510`
from any half-integer) cannot move the result. -/
def depth_offset (v levels : Nat) : Nat := (2 * v * levels + 255) / 510

/-- Left padding of a row:
`for x in range(n): image_pixels[x, y] = strip_pixels[x, y]`. -/
def leftPadLoop (strip : PixFn) (y : Nat) : Nat → PixFn → PixFn
  | 0, img => img
  | n + 1, img => setPx (leftPadLoop strip y n img) n y (strip n y)

/-- Main synthesis pass of a row: for `x in range(n)`, compute
`depth_offset` from `depth_pixels[x, y]` and write
`image_pixels[x + strip_width, y] = image_pixels[x + depth_offset, y]`,
reading the current state of the row. -/
def mainLoop (depth : Nat → Nat → Nat) (levels sw y : Nat) : Nat → PixFn → PixFn
  | 0, img => img
  | n + 1, img =>
      setPx (mainLoop depth levels sw y n img) (n + sw) y
        (mainLoop depth levels sw y n img (n + depth_offset (depth n y) levels) y)

/-- Right padding of a row: for `x in range(n)`, with
`offset = depth_map_width + strip_width + x`, write
`image_pixels[offset, y] = image_pixels[offset - strip_width, y]`; note
`offset - strip_width = w + x`. -/
def rightPadLoop (w sw y : Nat) : Nat → PixFn → PixFn
  | 0, img => img
  | n + 1, img =>
      setPx (rightPadLoop w sw y n img) (w + sw + n) y
        (rightPadLoop w sw y n img (w + n) y)

/-- One iteration of the row loop `for y in range(height)`: left pad, main
pass over the depth-map width, right pad. -/
def processRow (strip : PixFn) (depth : Nat → Nat → Nat) (levels w sw y : Nat)
    (img : PixFn) : PixFn :=
  rightPadLoop w sw y sw (mainLoop depth levels sw y w (leftPadLoop strip y sw img))

/-- The row loop: rows `0, …, n - 1` processed in order. -/
def rowsLoop (strip : PixFn) (depth : Nat → Nat → Nat) (levels w sw : Nat) :
    Nat → PixFn → PixFn
  | 0, img => img
  | n + 1, img => processRow strip depth levels w sw n (rowsLoop strip depth levels w sw n img)

/-- The pixel grid of the synthesized image: every row processed, starting
from the black buffer allocated by `Image.new`. -/
def synthPix (strip : PixFn) (depth : Nat → Nat → Nat) (levels w sw h : Nat) : PixFn :=
  rowsLoop strip depth levels w sw h (fun _ _ => (0, 0, 0))

/-- The background strip: `gen_strip_from_tile` when a tile is supplied,
else `gen_random_dot_strip`. -/
def background_strip (rand : PixFn) (tile : Option Img) (w h : Nat) :
    Except PyError Img :=
  match tile with
  | some t => gen_strip_from_tile t w h
  | none => Except.ok (gen_random_dot_strip rand w h)

/-- `gen_autostereogram(depth_map, levels=48, tile=None)`.  The output
buffer is `Image.new("RGB", (depth_map_width + strip_width * 2, height))`,
filled by the row loop.  `levels = 0` raises `ZeroDivisionError` in the
`num_strips` computation, `num_strips = 0` raises it in the `strip_width`
computation, and a zero-dimension tile raises it inside
`gen_strip_from_tile`. -/
def gen_autostereogram (rand : PixFn) (depth_map : DepthMap) (levels : Nat)
    (tile : Option Img) : Except PyError Img :=
  if levels = 0 then Except.error PyError.zeroDivisionError
  else if num_strips depth_map.width levels = 0 then Except.error PyError.zeroDivisionError
  else
    match background_strip rand tile (strip_width depth_map.width levels) depth_map.height with
    | Except.error e => Except.error e
    | Except.ok strip =>
        Except.ok ⟨depth_map.width + strip_width depth_map.width levels * 2, depth_map.height,
          synthPix strip.px depth_map.intensity levels depth_map.width
            (strip_width depth_map.width levels) depth_map.height⟩

/-! Pointwise behavior of the row loops. -/

theorem setPx_eq (f : PixFn) (x0 y0 : Nat) (p : Pixel) : setPx f x0 y0 p x0 y0 = p := by
  simp [setPx]

theorem setPx_ne (f : PixFn) (x0 y0 : Nat) (p : Pixel) (x y : Nat)
    (h : ¬(x = x0 ∧ y = y0)) : setPx f x0 y0 p x y = f x y := by
  simp only [setPx]
  exact if_neg h

theorem leftPadLoop_untouched (strip : PixFn) (y n : Nat) (img : PixFn) (x y' : Nat)
    (h : n ≤ x ∨ y' ≠ y) : leftPadLoop strip y n img x y' = img x y' := by
  induction n with
  | zero => rfl
  | succ n ih =>
    have hne : ¬(x = n ∧ y' = y) := by
      rintro ⟨rfl, rfl⟩
      rcases h with h | h
      · omega
      · exact h rfl
    have h' : n ≤ x ∨ y' ≠ y := by
      rcases h with h | h
      · exact Or.inl (by omega)
      · exact Or.inr h
    show setPx (leftPadLoop strip y n img) n y (strip n y) x y' = img x y'
    rw [setPx_ne _ _ _ _ _ _ hne]
    exact ih h'

theorem leftPadLoop_at (strip : PixFn) (y n : Nat) (img : PixFn) (x : Nat)
    (h : x < n) : leftPadLoop strip y n img x y = strip x y := by
  induction n with
  | zero => omega
  | succ n ih =>
    show setPx (leftPadLoop strip y n img) n y (strip n y) x y = strip x y
    rcases Nat.lt_or_ge x n with h1 | h1
    · rw [setPx_ne _ _ _ _ _ _ (by rintro ⟨rfl, -⟩; omega)]
      exact ih h1
    · have hx : x = n := by omega
      subst hx
      exact setPx_eq _ _ _ _

theorem mainLoop_untouched (depth : Nat → Nat → Nat) (levels sw y n : Nat) (img : PixFn)
    (x y' : Nat) (h : x < sw ∨ n + sw ≤ x ∨ y' ≠ y) :
    mainLoop depth levels sw y n img x y' = img x y' := by
  induction n with
  | zero => rfl
  | succ n ih =>
    have hne : ¬(x = n + sw ∧ y' = y) := by
      rintro ⟨rfl, rfl⟩
      rcases h with h | h | h
      · omega
      · omega
      · exact h rfl
    have h' : x < sw ∨ n + sw ≤ x ∨ y' ≠ y := by
      rcases h with h | h | h
      · exact Or.inl h
      · exact Or.inr (Or.inl (by omega))
      · exact Or.inr (Or.inr h)
    show setPx (mainLoop depth levels sw y n img) (n + sw) y _ x y' = img x y'
    rw [setPx_ne _ _ _ _ _ _ hne]
    exact ih h'

theorem mainLoop_stable (depth : Nat → Nat → Nat) (levels sw y : Nat) (img : PixFn)
    (m n x : Nat) (hmn : m ≤ n) (hx : x < m + sw) :
    mainLoop depth levels sw y n img x y = mainLoop depth levels sw y m img x y := by
  induction n with
  | zero =>
    have hm : m = 0 := by omega
    subst hm
    rfl
  | succ n ih =>
    rcases Nat.lt_or_ge m (n + 1) with h1 | h1
    · show setPx (mainLoop depth levels sw y n img) (n + sw) y _ x y = _
      rw [setPx_ne _ _ _ _ _ _ (by rintro ⟨rfl, -⟩; omega)]
      exact ih (by omega)
    · have hm : m = n + 1 := by omega
      subst hm
      rfl

theorem mainLoop_write (depth : Nat → Nat → Nat) (levels sw y n : Nat) (img : PixFn)
    (k : Nat) (hk : k < n) :
    mainLoop depth levels sw y n img (k + sw) y
      = mainLoop depth levels sw y k img (k + depth_offset (depth k y) levels) y := by
  rw [mainLoop_stable depth levels sw y img (k + 1) n (k + sw) hk (by omega)]
  show setPx (mainLoop depth levels sw y k img) (k + sw) y
      (mainLoop depth levels sw y k img (k + depth_offset (depth k y) levels) y) (k + sw) y = _
  exact setPx_eq _ _ _ _

theorem mainLoop_copy (depth : Nat → Nat → Nat) (levels sw y n : Nat) (img : PixFn)
    (k : Nat) (hk : k < n) (hd : depth_offset (depth k y) levels ≤ sw) :
    mainLoop depth levels sw y n img (k + sw) y
      = mainLoop depth levels sw y n img (k + depth_offset (depth k y) levels) y := by
  rcases Nat.lt_or_eq_of_le hd with hlt | heq
  · rw [mainLoop_write depth levels sw y n img k hk]
    exact (mainLoop_stable depth levels sw y img k n _ (by omega) (by omega)).symm
  · rw [heq]

theorem rightPadLoop_untouched (w sw y n : Nat) (img : PixFn) (x y' : Nat)
    (h : x < w + sw ∨ w + sw + n ≤ x ∨ y' ≠ y) :
    rightPadLoop w sw y n img x y' = img x y' := by
  induction n with
  | zero => rfl
  | succ n ih =>
    have hne : ¬(x = w + sw + n ∧ y' = y) := by
      rintro ⟨rfl, rfl⟩
      rcases h with h | h | h
      · omega
      · omega
      · exact h rfl
    have h' : x < w + sw ∨ w + sw + n ≤ x ∨ y' ≠ y := by
      rcases h with h | h | h
      · exact Or.inl h
      · exact Or.inr (Or.inl (by omega))
      · exact Or.inr (Or.inr h)
    show setPx (rightPadLoop w sw y n img) (w + sw + n) y _ x y' = img x y'
    rw [setPx_ne _ _ _ _ _ _ hne]
    exact ih h'

theorem rightPadLoop_stable (w sw y : Nat) (img : PixFn) (m n x : Nat)
    (hmn : m ≤ n) (hx : x < w + sw + m) :
    rightPadLoop w sw y n img x y = rightPadLoop w sw y m img x y := by
  induction n with
  | zero =>
    have hm : m = 0 := by omega
    subst hm
    rfl
  | succ n ih =>
    rcases Nat.lt_or_ge m (n + 1) with h1 | h1
    · show setPx (rightPadLoop w sw y n img) (w + sw + n) y _ x y = _
      rw [setPx_ne _ _ _ _ _ _ (by rintro ⟨rfl, -⟩; omega)]
      exact ih (by omega)
    · have hm : m = n + 1 := by omega
      subst hm
      rfl

theorem rightPadLoop_write (w sw y n : Nat) (img : PixFn) (k : Nat)
    (hk : k < n) (hks : k < sw) :
    rightPadLoop w sw y n img (w + sw + k) y = img (w + k) y := by
  rw [rightPadLoop_stable w sw y img (k + 1) n (w + sw + k) hk (by omega)]
  show setPx (rightPadLoop w sw y k img) (w + sw + k) y
      (rightPadLoop w sw y k img (w + k) y) (w + sw + k) y = _
  rw [setPx_eq]
  exact rightPadLoop_untouched w sw y k img (w + k) y (Or.inl (by omega))

theorem leftPadLoop_congr (strip : PixFn) (y n : Nat) (img1 img2 : PixFn)
    (h : ∀ x, img1 x y = img2 x y) :
    ∀ x, leftPadLoop strip y n img1 x y = leftPadLoop strip y n img2 x y := by
  induction n with
  | zero => exact h
  | succ n ih =>
    intro x
    show setPx (leftPadLoop strip y n img1) n y (strip n y) x y
        = setPx (leftPadLoop strip y n img2) n y (strip n y) x y
    by_cases hx : x = n ∧ y = y
    · rcases hx with ⟨rfl, -⟩
      rw [setPx_eq, setPx_eq]
    · rw [setPx_ne _ _ _ _ _ _ hx, setPx_ne _ _ _ _ _ _ hx]
      exact ih x

theorem mainLoop_congr (depth1 depth2 : Nat → Nat → Nat) (levels sw y : Nat)
    (img1 img2 : PixFn) (h : ∀ x, img1 x y = img2 x y) (n : Nat) :
    (∀ k, k < n → depth1 k y = depth2 k y) →
    ∀ x, mainLoop depth1 levels sw y n img1 x y = mainLoop depth2 levels sw y n img2 x y := by
  induction n with
  | zero => exact fun _ => h
  | succ n ih =>
    intro hd x
    show setPx (mainLoop depth1 levels sw y n img1) (n + sw) y
        (mainLoop depth1 levels sw y n img1 (n + depth_offset (depth1 n y) levels) y) x y
        = setPx (mainLoop depth2 levels sw y n img2) (n + sw) y
        (mainLoop depth2 levels sw y n img2 (n + depth_offset (depth2 n y) levels) y) x y
    have hd' : ∀ k, k < n → depth1 k y = depth2 k y := fun k hk => hd k (by omega)
    have hval : mainLoop depth1 levels sw y n img1 (n + depth_offset (depth1 n y) levels) y
        = mainLoop depth2 levels sw y n img2 (n + depth_offset (depth2 n y) levels) y := by
      rw [hd n (by omega)]
      exact ih hd' _
    by_cases hx : x = n + sw ∧ y = y
    · rcases hx with ⟨rfl, -⟩
      rw [setPx_eq, setPx_eq]
      exact hval
    · rw [setPx_ne _ _ _ _ _ _ hx, setPx_ne _ _ _ _ _ _ hx]
      exact ih hd' x

theorem rightPadLoop_congr (w sw y n : Nat) (img1 img2 : PixFn)
    (h : ∀ x, img1 x y = img2 x y) :
    ∀ x, rightPadLoop w sw y n img1 x y = rightPadLoop w sw y n img2 x y := by
  induction n with
  | zero => exact h
  | succ n ih =>
    intro x
    show setPx (rightPadLoop w sw y n img1) (w + sw + n) y
        (rightPadLoop w sw y n img1 (w + n) y) x y
        = setPx (rightPadLoop w sw y n img2) (w + sw + n) y
        (rightPadLoop w sw y n img2 (w + n) y) x y
    by_cases hx : x = w + sw + n ∧ y = y
    · rcases hx with ⟨rfl, -⟩
      rw [setPx_eq, setPx_eq]
      exact ih _
    · rw [setPx_ne _ _ _ _ _ _ hx, setPx_ne _ _ _ _ _ _ hx]
      exact ih x

theorem processRow_other_row (strip : PixFn) (depth : Nat → Nat → Nat)
    (levels w sw y : Nat) (img : PixFn) (x y' : Nat) (h : y' ≠ y) :
    processRow strip depth levels w sw y img x y' = img x y' := by
  unfold processRow
  rw [rightPadLoop_untouched _ _ _ _ _ _ _ (Or.inr (Or.inr h)),
    mainLoop_untouched _ _ _ _ _ _ _ _ (Or.inr (Or.inr h)),
    leftPadLoop_untouched _ _ _ _ _ _ (Or.inr h)]

theorem processRow_congr (strip : PixFn) (depth1 depth2 : Nat → Nat → Nat)
    (levels w sw y : Nat) (img1 img2 : PixFn)
    (hd : ∀ k, k < w → depth1 k y = depth2 k y)
    (h : ∀ x, img1 x y = img2 x y) :
    ∀ x, processRow strip depth1 levels w sw y img1 x y
      = processRow strip depth2 levels w sw y img2 x y := by
  intro x
  unfold processRow
  exact rightPadLoop_congr w sw y sw _ _
    (mainLoop_congr depth1 depth2 levels sw y _ _
      (leftPadLoop_congr strip y sw img1 img2 h) w hd) x

theorem rowsLoop_preserve (strip : PixFn) (depth : Nat → Nat → Nat)
    (levels w sw n : Nat) (img : PixFn) (x y' : Nat) (h : n ≤ y') :
    rowsLoop strip depth levels w sw n img x y' = img x y' := by
  induction n with
  | zero => rfl
  | succ n ih =>
    show processRow strip depth levels w sw n (rowsLoop strip depth levels w sw n img) x y' = _
    rw [processRow_other_row _ _ _ _ _ _ _ _ _ (by omega)]
    exact ih (by omega)

theorem rowsLoop_row (strip : PixFn) (depth : Nat → Nat → Nat)
    (levels w sw n : Nat) (img : PixFn) (y : Nat) (hy : y < n) :
    ∀ x, rowsLoop strip depth levels w sw n img x y
      = processRow strip depth levels w sw y img x y := by
  induction n with
  | zero => omega
  | succ n ih =>
    intro x
    show processRow strip depth levels w sw n (rowsLoop strip depth levels w sw n img) x y = _
    rcases Nat.lt_or_ge y n with h1 | h1
    · rw [processRow_other_row _ _ _ _ _ _ _ _ _ (by omega)]
      exact ih h1 x
    · have hyn : y = n := by omega
      subst hyn
      exact processRow_congr strip depth depth levels w sw y _ img (fun _ _ => rfl)
        (fun x2 => rowsLoop_preserve strip depth levels w sw y img x2 y (le_refl y)) x

/-! Final values of the synthesized grid, region by region. -/

theorem synthPix_row (strip : PixFn) (depth : Nat → Nat → Nat)
    (levels w sw h y : Nat) (hy : y < h) (x : Nat) :
    synthPix strip depth levels w sw h x y
      = processRow strip depth levels w sw y (fun _ _ => (0, 0, 0)) x y :=
  rowsLoop_row strip depth levels w sw h _ y hy x

theorem synthPix_left (strip : PixFn) (depth : Nat → Nat → Nat)
    (levels w sw h x y : Nat) (hx : x < sw) (hy : y < h) :
    synthPix strip depth levels w sw h x y = strip x y := by
  rw [synthPix_row _ _ _ _ _ _ _ hy]
  unfold processRow
  rw [rightPadLoop_untouched _ _ _ _ _ _ _ (Or.inl (by omega)),
    mainLoop_untouched _ _ _ _ _ _ _ _ (Or.inl hx)]
  exact leftPadLoop_at _ _ _ _ _ hx

theorem synthPix_copy (strip : PixFn) (depth : Nat → Nat → Nat)
    (levels w sw h k y : Nat) (hk : k < w) (hy : y < h)
    (hd : depth_offset (depth k y) levels ≤ sw) :
    synthPix strip depth levels w sw h (k + sw) y
      = synthPix strip depth levels w sw h (k + depth_offset (depth k y) levels) y := by
  rw [synthPix_row _ _ _ _ _ _ _ hy, synthPix_row _ _ _ _ _ _ _ hy]
  unfold processRow
  rw [rightPadLoop_untouched _ _ _ _ _ _ _ (Or.inl (by omega)),
    rightPadLoop_untouched _ _ _ _ _ _ _ (Or.inl (by omega))]
  exact mainLoop_copy depth levels sw y w _ k hk hd

theorem synthPix_rightpad (strip : PixFn) (depth : Nat → Nat → Nat)
    (levels w sw h x y : Nat) (hx : x < sw) (hy : y < h) :
    synthPix strip depth levels w sw h (w + sw + x) y
      = synthPix strip depth levels w sw h (w + x) y := by
  rw [synthPix_row _ _ _ _ _ _ _ hy, synthPix_row _ _ _ _ _ _ _ hy]
  unfold processRow
  rw [rightPadLoop_write w sw y sw _ x hx hx,
    rightPadLoop_untouched _ _ _ _ _ _ _ (Or.inl (by omega))]

/-! Arithmetic facts about num_strips, strip_width and depth_offset. -/

theorem num_strips_pos_levels (w levels : Nat) (hns : 1 ≤ num_strips w levels) :
    1 ≤ levels := by
  by_contra h
  have hl : levels = 0 := by omega
  subst hl
  simp [num_strips] at hns

theorem num_strips_le_width (w levels : Nat) (hns : 1 ≤ num_strips w levels) :
    num_strips w levels ≤ w := by
  have hl : 1 ≤ levels := num_strips_pos_levels w levels hns
  have h1 : num_strips w levels ≤ 3 * w / 4 := Nat.div_le_div_left (by omega) (by omega)
  have h2 : 3 * w / 4 ≤ w := by omega
  omega

theorem strip_width_pos (w levels : Nat) (hns : 1 ≤ num_strips w levels) :
    1 ≤ strip_width w levels :=
  (Nat.one_le_div_iff (by omega)).mpr (num_strips_le_width w levels hns)

theorem strip_width_le_width (w levels : Nat) : strip_width w levels ≤ w :=
  Nat.div_le_self w (num_strips w levels)

theorem levels_le_strip_width (w levels : Nat) (hns : 1 ≤ num_strips w levels) :
    levels ≤ strip_width w levels := by
  have h1 : num_strips w levels * (4 * levels) ≤ 3 * w :=
    Nat.div_mul_le_self (3 * w) (4 * levels)
  have h2 : 4 * (num_strips w levels * levels) ≤ 4 * w := by
    calc 4 * (num_strips w levels * levels) = num_strips w levels * (4 * levels) := by ring
    _ ≤ 3 * w := h1
    _ ≤ 4 * w := by omega
  have h3 : num_strips w levels * levels ≤ w := Nat.le_of_mul_le_mul_left h2 (by omega)
  rw [strip_width, Nat.le_div_iff_mul_le (by omega : 0 < num_strips w levels)]
  calc levels * num_strips w levels = num_strips w levels * levels := by ring
  _ ≤ w := h3

theorem levels_lt_strip_width (w levels : Nat) (hns : 1 ≤ num_strips w levels)
    (hl3 : 3 ≤ levels) : levels < strip_width w levels := by
  have h1 : num_strips w levels * (4 * levels) ≤ 3 * w :=
    Nat.div_mul_le_self (3 * w) (4 * levels)
  have h2 : 3 * ((levels + 1) * num_strips w levels) ≤ 3 * w := by
    calc 3 * ((levels + 1) * num_strips w levels)
        = (3 * (levels + 1)) * num_strips w levels := by ring
    _ ≤ (4 * levels) * num_strips w levels := mul_le_mul_right' (by omega) _
    _ = num_strips w levels * (4 * levels) := by ring
    _ ≤ 3 * w := h1
  have h3 : (levels + 1) * num_strips w levels ≤ w := Nat.le_of_mul_le_mul_left h2 (by omega)
  have h4 : levels + 1 ≤ strip_width w levels := by
    rw [strip_width, Nat.le_div_iff_mul_le (by omega : 0 < num_strips w levels)]
    exact h3
  omega

theorem depth_offset_le_levels (v levels : Nat) (hv : v ≤ 255) :
    depth_offset v levels ≤ levels := by
  have h1 : 2 * v * levels ≤ 510 * levels := mul_le_mul_right' (by omega) levels
  have h2 : (2 * v * levels + 255) / 510 ≤ (255 + 510 * levels) / 510 :=
    Nat.div_le_div_right (by omega)
  have h3 : (255 + 510 * levels) / 510 = levels := by
    rw [Nat.add_mul_div_left _ _ (by omega : 0 < 510)]
    omega
  rw [depth_offset]
  omega

theorem depth_offset_zero (levels : Nat) : depth_offset 0 levels = 0 := by
  rw [depth_offset]
  omega

theorem depth_offset_le_strip_width (w v levels : Nat) (hns : 1 ≤ num_strips w levels)
    (hv : v ≤ 255) : depth_offset v levels ≤ strip_width w levels :=
  le_trans (depth_offset_le_levels v levels hv) (levels_le_strip_width w levels hns)

theorem synthPix_depth_congr (strip : PixFn) (depth1 depth2 : Nat → Nat → Nat)
    (levels w sw h y : Nat) (hrow : ∀ k, k < w → depth1 k y = depth2 k y) (c : Nat) :
    synthPix strip depth1 levels w sw h c y = synthPix strip depth2 levels w sw h c y := by
  rcases Nat.lt_or_ge y h with hy | hy
  · rw [synthPix_row strip depth1 levels w sw h y hy c,
      synthPix_row strip depth2 levels w sw h y hy c]
    exact processRow_congr strip depth1 depth2 levels w sw y _ _ hrow (fun _ => rfl) c
  · unfold synthPix
    rw [rowsLoop_preserve strip depth1 levels w sw h _ c y hy,
      rowsLoop_preserve strip depth2 levels w sw h _ c y hy]

theorem synthPix_flat (strip : PixFn) (depth : Nat → Nat → Nat) (levels w sw h : Nat)
    (hzero : ∀ x y, x < w → y < h → depth x y = 0)
    (hsw : 1 ≤ sw) (c y : Nat) (hy : y < h) :
    c < w + sw * 2 → synthPix strip depth levels w sw h c y = strip (c % sw) y := by
  induction c using Nat.strong_induction_on with
  | _ c ih =>
    intro hc
    rcases Nat.lt_or_ge c sw with h1 | h1
    · rw [synthPix_left strip depth levels w sw h c y h1 hy, Nat.mod_eq_of_lt h1]
    · rcases Nat.lt_or_ge c (sw + w) with h2 | h2
      · have hk : c - sw < w := by omega
        have hd0 : depth (c - sw) y = 0 := hzero _ y hk hy
        have hcopy : synthPix strip depth levels w sw h ((c - sw) + sw) y
            = synthPix strip depth levels w sw h
                ((c - sw) + depth_offset (depth (c - sw) y) levels) y :=
          synthPix_copy strip depth levels w sw h (c - sw) y hk hy
            (by rw [hd0, depth_offset_zero]; omega)
        rw [hd0, depth_offset_zero, Nat.add_zero] at hcopy
        rw [show c = (c - sw) + sw by omega]
        rw [hcopy, ih (c - sw) (by omega) (by omega), Nat.add_mod_right]
      · have hx : c - (w + sw) < sw := by omega
        have hcr : synthPix strip depth levels w sw h (w + sw + (c - (w + sw))) y
            = synthPix strip depth levels w sw h (w + (c - (w + sw))) y :=
          synthPix_rightpad strip depth levels w sw h (c - (w + sw)) y hx hy
        have e1 : w + sw + (c - (w + sw)) = c := by omega
        rw [e1] at hcr
        rw [hcr, ih (w + (c - (w + sw))) (by omega) (by omega)]
        have e3 : w + (c - (w + sw)) = c - sw := by omega
        rw [e3, ← Nat.mod_eq_sub_mod (by omega : sw ≤ c)]

/-! Unfolding gen_autostereogram in the non-error case. -/

theorem background_strip_ok (rand : PixFn) (tile : Option Img) (sw h : Nat)
    (htile : ∀ t, tile = some t → 0 < t.width ∧ 0 < t.height) :
    ∃ strip : Img, background_strip rand tile sw h = Except.ok strip := by
  cases tile with
  | none => exact ⟨_, rfl⟩
  | some t =>
    have ht := htile t rfl
    refine ⟨⟨sw, h, fun x y => t.px (x % t.width) (y % t.height)⟩, ?_⟩
    show gen_strip_from_tile t sw h = _
    rw [gen_strip_from_tile, if_neg (by rintro ⟨-, -, hc | hc⟩ <;> omega)]

theorem gen_ok (rand : PixFn) (d : DepthMap) (levels : Nat) (tile : Option Img)
    (hns : 1 ≤ num_strips d.width levels)
    (htile : ∀ t, tile = some t → 0 < t.width ∧ 0 < t.height) :
    ∃ strip : Img,
      background_strip rand tile (strip_width d.width levels) d.height = Except.ok strip ∧
      gen_autostereogram rand d levels tile =
        Except.ok ⟨d.width + strip_width d.width levels * 2, d.height,
          synthPix strip.px d.intensity levels d.width (strip_width d.width levels)
            d.height⟩ := by
  have hl : levels ≠ 0 := by
    have := num_strips_pos_levels d.width levels hns
    omega
  obtain ⟨strip, hstrip⟩ :=
    background_strip_ok rand tile (strip_width d.width levels) d.height htile
  refine ⟨strip, hstrip, ?_⟩
  rw [gen_autostereogram, if_neg hl,
    if_neg (by omega : ¬ num_strips d.width levels = 0), hstrip]

/-! The claims. -/

/-- C1: for every depth-map pixel (x, y) in the main pass, the output pixel
at column x + strip_width of row y equals the output pixel at column
x + depth_offset of the same row, with depth_offset = round(intensity *
levels / 255.0).  (When depth_offset < strip_width the source column was
written earlier in the pass and never rewritten; when depth_offset =
strip_width — possible only for levels ≤ 2 — the two columns coincide.) -/
theorem C1_main_pass_copy (rand : PixFn) (d : DepthMap) (levels : Nat) (tile : Option Img)
    (x y : Nat) (hns : 1 ≤ num_strips d.width levels)
    (htile : ∀ t, tile = some t → 0 < t.width ∧ 0 < t.height)
    (hx : x < d.width) (hy : y < d.height) (hv : d.intensity x y ≤ 255) :
    (gen_autostereogram rand d levels tile).toOption.map
        (fun img => img.px (x + strip_width d.width levels) y)
      = (gen_autostereogram rand d levels tile).toOption.map
        (fun img => img.px (x + depth_offset (d.intensity x y) levels) y) := by
  obtain ⟨strip, -, hgen⟩ := gen_ok rand d levels tile hns htile
  rw [hgen]
  exact congrArg some (synthPix_copy strip.px d.intensity levels d.width
    (strip_width d.width levels) d.height x y hx hy
    (depth_offset_le_strip_width d.width (d.intensity x y) levels hns hv))

/-- Witness for C1: a 4-wide, 1-high depth map of constant intensity 200
with levels = 3 (num_strips = 1, strip_width = 4, depth_offset = 2). -/
theorem C1_main_pass_copy_witness :
    (gen_autostereogram (fun x _ => (x, 0, 0)) ⟨4, 1, fun _ _ => 200⟩ 3 none).toOption.map
        (fun img => img.px (0 + strip_width 4 3) 0)
      = (gen_autostereogram (fun x _ => (x, 0, 0)) ⟨4, 1, fun _ _ => 200⟩ 3 none).toOption.map
        (fun img => img.px (0 + depth_offset 200 3) 0) :=
  C1_main_pass_copy (fun x _ => (x, 0, 0)) ⟨4, 1, fun _ _ => 200⟩ 3 none 0 0
    (by decide) (fun t h => nomatch h) (by decide) (by decide) (by decide)

/-- C2: for depth maps of positive dimensions with levels ≥ 1 and
num_strips ≥ 1 (and a tile, if supplied, of positive dimensions), the
returned image has width depth_map_width + 2 * (depth_map_width //
num_strips) and the depth map's height. -/
theorem C2_output_dimensions (rand : PixFn) (d : DepthMap) (levels : Nat) (tile : Option Img)
    (hw : 0 < d.width) (hh : 0 < d.height) (hl : 1 ≤ levels)
    (hns : 1 ≤ num_strips d.width levels)
    (htile : ∀ t, tile = some t → 0 < t.width ∧ 0 < t.height) :
    (gen_autostereogram rand d levels tile).toOption.map (fun img => (img.width, img.height))
      = some (d.width + 2 * (d.width / num_strips d.width levels), d.height) := by
  obtain ⟨strip, -, hgen⟩ := gen_ok rand d levels tile hns htile
  rw [hgen]
  have h2 : d.width + strip_width d.width levels * 2
      = d.width + 2 * (d.width / num_strips d.width levels) := by
    rw [strip_width]
    ring
  exact congrArg some (by rw [← h2])

/-- Witness for C2: the spec's concrete scenario, a 100-wide, 10-high
depth map with levels = 48 and no tile. -/
theorem C2_output_dimensions_witness :
    (gen_autostereogram (fun _ _ => (0, 0, 0)) ⟨100, 10, fun _ _ => 0⟩ 48 none).toOption.map
        (fun img => (img.width, img.height))
      = some (100 + 2 * (100 / num_strips 100 48), 10) :=
  C2_output_dimensions (fun _ _ => (0, 0, 0)) ⟨100, 10, fun _ _ => 0⟩ 48 none
    (by decide) (by decide) (by decide) (by decide) (fun t h => nomatch h)

/-- C3 counterexample: with depth_map_width = 4 and levels = 1 we get
num_strips = 3 and strip_width = 1, and intensity 255 gives depth_offset
= 1, which is not strictly less than strip_width: the claim that
depth_offset < strip_width for every levels ≥ 1 with num_strips ≥ 1 fails. -/
theorem C3_counterexample :
    1 ≤ num_strips 4 1 ∧ strip_width 4 1 = 1 ∧ depth_offset 255 1 = 1 ∧
      ¬ depth_offset 255 1 < strip_width 4 1 := by decide

/-- C3 amended: for levels ≥ 3 (with num_strips ≥ 1), every depth_offset
computed from an intensity ≤ 255 is strictly less than strip_width, so
every main-pass read at column x + depth_offset lies strictly to the left
of the write position x + strip_width.  (For levels ≤ 2, depth_offset ≤
strip_width still holds, but equality is possible.) -/
theorem C3_offset_lt_strip_width (w v levels : Nat) (hns : 1 ≤ num_strips w levels)
    (hl3 : 3 ≤ levels) (hv : v ≤ 255) :
    depth_offset v levels < strip_width w levels :=
  lt_of_le_of_lt (depth_offset_le_levels v levels hv)
    (levels_lt_strip_width w levels hns hl3)

/-- Witness for C3 amended: width 100, levels 48, intensity 255. -/
theorem C3_offset_lt_strip_width_witness :
    depth_offset 255 48 < strip_width 100 48 :=
  C3_offset_lt_strip_width 100 255 48 (by decide) (by decide) (by decide)

/-- C4: on an all-zero depth map every in-range output pixel (c, y) equals
the background-strip pixel (c % strip_width, y): the whole output is a
horizontal repetition of the left-pad strip with period strip_width. -/
theorem C4_flat_depth_repetition (rand : PixFn) (d : DepthMap) (levels : Nat)
    (tile : Option Img) (strip : Img)
    (hzero : ∀ x y, x < d.width → y < d.height → d.intensity x y = 0)
    (hns : 1 ≤ num_strips d.width levels)
    (htile : ∀ t, tile = some t → 0 < t.width ∧ 0 < t.height)
    (hstrip : background_strip rand tile (strip_width d.width levels) d.height
      = Except.ok strip)
    (c y : Nat) (hc : c < d.width + strip_width d.width levels * 2) (hy : y < d.height) :
    (gen_autostereogram rand d levels tile).toOption.map (fun img => img.px c y)
      = some (strip.px (c % strip_width d.width levels) y) := by
  obtain ⟨strip2, hstrip2, hgen⟩ := gen_ok rand d levels tile hns htile
  have he : strip2 = strip := Except.ok.inj (hstrip2.symm.trans hstrip)
  subst he
  rw [hgen]
  exact congrArg some (synthPix_flat strip2.px d.intensity levels d.width
    (strip_width d.width levels) d.height hzero
    (strip_width_pos d.width levels hns) c y hy hc)

/-- Witness for C4: the spec's concrete scenario — 100×10 all-zero depth
map, no tile, levels = 48, giving num_strips = 1, strip_width = 100,
output 300×10, checked at output pixel (237, 3). -/
theorem C4_flat_depth_repetition_witness :
    num_strips 100 48 = 1 ∧ strip_width 100 48 = 100 ∧
    (gen_autostereogram (fun x y => (x, y, 1)) ⟨100, 10, fun _ _ => 0⟩ 48 none).toOption.map
        (fun img => (img.width, img.height)) = some (300, 10) ∧
    (gen_autostereogram (fun x y => (x, y, 1)) ⟨100, 10, fun _ _ => 0⟩ 48 none).toOption.map
        (fun img => img.px 237 3)
      = some ((gen_random_dot_strip (fun x y => (x, y, 1)) (strip_width 100 48) 10).px
          (237 % strip_width 100 48) 3) :=
  ⟨by decide, by decide, by decide,
    C4_flat_depth_repetition (fun x y => (x, y, 1)) ⟨100, 10, fun _ _ => 0⟩ 48 none
      (gen_random_dot_strip (fun x y => (x, y, 1)) (strip_width 100 48) 10)
      (fun _ _ _ _ => rfl) (by decide) (fun t h => nomatch h) rfl 237 3
      (by decide) (by decide)⟩

/-- C5: every right-pad column equals the column exactly strip_width
positions to its left, in every row, regardless of depth-map content. -/
theorem C5_right_pad_invariant (rand : PixFn) (d : DepthMap) (levels : Nat)
    (tile : Option Img) (x y : Nat) (hns : 1 ≤ num_strips d.width levels)
    (htile : ∀ t, tile = some t → 0 < t.width ∧ 0 < t.height)
    (hx : x < strip_width d.width levels) (hy : y < d.height) :
    (gen_autostereogram rand d levels tile).toOption.map
        (fun img => img.px (d.width + strip_width d.width levels + x) y)
      = (gen_autostereogram rand d levels tile).toOption.map
        (fun img => img.px (d.width + x) y) := by
  obtain ⟨strip, -, hgen⟩ := gen_ok rand d levels tile hns htile
  rw [hgen]
  exact congrArg some (synthPix_rightpad strip.px d.intensity levels d.width
    (strip_width d.width levels) d.height x y hx hy)

/-- Witness for C5: a 4-wide, 2-high depth map with levels = 2
(strip_width = 4), checked at right-pad offset x = 1, row y = 1. -/
theorem C5_right_pad_invariant_witness :
    (gen_autostereogram (fun x y => (x + y, 0, 0)) ⟨4, 2, fun x _ => x * 60⟩ 2 none).toOption.map
        (fun img => img.px (4 + strip_width 4 2 + 1) 1)
      = (gen_autostereogram (fun x y => (x + y, 0, 0)) ⟨4, 2, fun x _ => x * 60⟩ 2 none).toOption.map
        (fun img => img.px (4 + 1) 1) :=
  C5_right_pad_invariant (fun x y => (x + y, 0, 0)) ⟨4, 2, fun x _ => x * 60⟩ 2 none 1 1
    (by decide) (fun t h => nomatch h) (by decide) (by decide)

/-- C6: each output row depends only on the same row of the depth map (and
the strip): two depth maps of equal dimensions that agree on row y produce
outputs that agree everywhere on row y, for the same random draws, levels
and tile. -/
theorem C6_row_independence (rand : PixFn) (levels : Nat) (tile : Option Img)
    (d1 d2 : DepthMap) (y c : Nat) (hw : d1.width = d2.width) (hh : d1.height = d2.height)
    (hrow : ∀ x, x < d1.width → d1.intensity x y = d2.intensity x y) :
    (gen_autostereogram rand d1 levels tile).toOption.map (fun img => img.px c y)
      = (gen_autostereogram rand d2 levels tile).toOption.map (fun img => img.px c y) := by
  unfold gen_autostereogram
  rw [← hw, ← hh]
  by_cases hl : levels = 0
  · rw [if_pos hl, if_pos hl]
  · rw [if_neg hl, if_neg hl]
    by_cases hns : num_strips d1.width levels = 0
    · rw [if_pos hns, if_pos hns]
    · rw [if_neg hns, if_neg hns]
      cases background_strip rand tile (strip_width d1.width levels) d1.height with
      | error e => rfl
      | ok strip =>
        exact congrArg some (synthPix_depth_congr strip.px d1.intensity d2.intensity levels
          d1.width (strip_width d1.width levels) d1.height y hrow c)

/-- Witness for C6: two 4×2 depth maps that agree on row 0 and differ on
row 1, compared at output pixel (5, 0) with levels = 3. -/
theorem C6_row_independence_witness :
    (gen_autostereogram (fun x _ => (x, 0, 0))
        ⟨4, 2, fun x y => if y = 0 then 30 * x else 7⟩ 3 none).toOption.map
        (fun img => img.px 5 0)
      = (gen_autostereogram (fun x _ => (x, 0, 0))
        ⟨4, 2, fun x y => if y = 0 then 30 * x else 9⟩ 3 none).toOption.map
        (fun img => img.px 5 0) :=
  C6_row_independence (fun x _ => (x, 0, 0)) 3 none
    ⟨4, 2, fun x y => if y = 0 then 30 * x else 7⟩
    ⟨4, 2, fun x y => if y = 0 then 30 * x else 9⟩ 0 5 rfl rfl (by decide)

/-- C7 amended: the source never raises an InvalidInput error; it
propagates an uncaught ZeroDivisionError exactly when levels = 0, or
num_strips = 0 (which covers zero-width depth maps), or a supplied tile
has a zero dimension while the depth map's height is positive.  In
particular a zero-height depth map with num_strips ≥ 1 raises nothing. -/
theorem C7_error_characterization (rand : PixFn) (d : DepthMap) (levels : Nat)
    (tile : Option Img) :
    (gen_autostereogram rand d levels tile = Except.error PyError.zeroDivisionError ↔
      levels = 0 ∨ num_strips d.width levels = 0 ∨
        ∃ t, tile = some t ∧ (t.width = 0 ∨ t.height = 0) ∧ 0 < d.height) ∧
      gen_autostereogram rand d levels tile ≠ Except.error PyError.invalidInput := by
  by_cases hl : levels = 0
  · have hgen : gen_autostereogram rand d levels tile
        = Except.error PyError.zeroDivisionError := by
      rw [gen_autostereogram, if_pos hl]
    rw [hgen]
    exact ⟨⟨fun _ => Or.inl hl, fun _ => rfl⟩,
      fun hcontra => PyError.noConfusion (Except.error.inj hcontra)⟩
  · by_cases hns : num_strips d.width levels = 0
    · have hgen : gen_autostereogram rand d levels tile
          = Except.error PyError.zeroDivisionError := by
        rw [gen_autostereogram, if_neg hl, if_pos hns]
      rw [hgen]
      exact ⟨⟨fun _ => Or.inr (Or.inl hns), fun _ => rfl⟩,
        fun hcontra => PyError.noConfusion (Except.error.inj hcontra)⟩
    · cases tile with
      | none =>
        obtain ⟨strip, -, hgen⟩ := gen_ok rand d levels none (by omega) (fun t h => nomatch h)
        rw [hgen]
        refine ⟨⟨fun hcontra => Except.noConfusion hcontra, fun hr => ?_⟩,
          fun hcontra => Except.noConfusion hcontra⟩
        rcases hr with hr | hr | ⟨t, ht, -, -⟩
        · exact absurd hr hl
        · exact absurd hr hns
        · exact nomatch ht
      | some t =>
        by_cases hbad : (t.width = 0 ∨ t.height = 0) ∧ 0 < d.height
        · have hgen : gen_autostereogram rand d levels (some t)
              = Except.error PyError.zeroDivisionError := by
            rw [gen_autostereogram, if_neg hl, if_neg hns]
            have hbs : background_strip rand (some t) (strip_width d.width levels) d.height
                = Except.error PyError.zeroDivisionError := by
              show gen_strip_from_tile t (strip_width d.width levels) d.height = _
              rw [gen_strip_from_tile,
                if_pos ⟨strip_width_pos d.width levels (by omega), hbad.2, hbad.1⟩]
            rw [hbs]
          rw [hgen]
          exact ⟨⟨fun _ => Or.inr (Or.inr ⟨t, rfl, hbad.1, hbad.2⟩), fun _ => rfl⟩,
            fun hcontra => PyError.noConfusion (Except.error.inj hcontra)⟩
        · have hbs : background_strip rand (some t) (strip_width d.width levels) d.height
              = Except.ok ⟨strip_width d.width levels, d.height,
                  fun x y => t.px (x % t.width) (y % t.height)⟩ := by
            show gen_strip_from_tile t (strip_width d.width levels) d.height = _
            rw [gen_strip_from_tile, if_neg (fun hcond => hbad ⟨hcond.2.2, hcond.2.1⟩)]
          have hgen : gen_autostereogram rand d levels (some t)
              = Except.ok ⟨d.width + strip_width d.width levels * 2, d.height,
                  synthPix (fun x y => t.px (x % t.width) (y % t.height)) d.intensity levels
                    d.width (strip_width d.width levels) d.height⟩ := by
            rw [gen_autostereogram, if_neg hl, if_neg hns, hbs]
          rw [hgen]
          refine ⟨⟨fun hcontra => Except.noConfusion hcontra, fun hr => ?_⟩,
            fun hcontra => Except.noConfusion hcontra⟩
          rcases hr with hr | hr | ⟨t2, ht2, hbad2, hh2⟩
          · exact absurd hr hl
          · exact absurd hr hns
          · injection ht2 with ht2e
            subst ht2e
            exact absurd ⟨hbad2, hh2⟩ hbad

/-- C7 counterexample: a degenerate depth map (zero height, 100 wide) with
levels = 48 and no tile makes gen_autostereogram return a (zero-height)
image successfully — no error of any kind is raised, contradicting the
claim that InvalidInput is raised exactly at degenerate inputs. -/
theorem C7_counterexample :
    ∃ img : Img, gen_autostereogram (fun _ _ => (0, 0, 0)) ⟨100, 0, fun _ _ => 0⟩ 48 none
      = Except.ok img :=
  ⟨_, rfl⟩

/-- C8: for a tile of positive dimensions, gen_strip_from_tile succeeds
and its pixel (x, y) is exactly tile pixel (x % tile_width, y %
tile_height), for all in-range x, y; as a pure function it is trivially
deterministic. -/
theorem C8_tile_strip_exact (tile : Img) (w h x y : Nat) (htw : 1 ≤ tile.width)
    (hth : 1 ≤ tile.height) (hx : x < w) (hy : y < h) :
    (gen_strip_from_tile tile w h).toOption.map (fun s => s.px x y)
      = some (tile.px (x % tile.width) (y % tile.height)) := by
  rw [gen_strip_from_tile, if_neg (by rintro ⟨-, -, hc | hc⟩ <;> omega)]
  rfl

/-- Witness for C8: a 2×3 tile filling a 5×4 strip, checked at (3, 2). -/
theorem C8_tile_strip_exact_witness :
    (gen_strip_from_tile ⟨2, 3, fun x y => (x, y, 5)⟩ 5 4).toOption.map
        (fun s => s.px 3 2)
      = some (1, 2, 5) :=
  C8_tile_strip_exact ⟨2, 3, fun x y => (x, y, 5)⟩ 5 4 3 2
    (by decide) (by decide) (by decide) (by decide)

/-- C9: the claim says every channel produced by gen_random_dot_strip lies
in 0..255, but the source draws channels with randint(0, 256), which is
inclusive of 256: an oracle that returns 256 (a legal randint(0, 256)
outcome) yields a strip pixel whose red channel is 256 > 255. -/
theorem C9_random_channel_overflow :
    randint_oracle (fun _ _ => (256, 0, 0)) ∧
    ((gen_random_dot_strip (fun _ _ => (256, 0, 0)) 1 1).px 0 0).1 = 256 ∧
    ¬ ((gen_random_dot_strip (fun _ _ => (256, 0, 0)) 1 1).px 0 0).1 ≤ 255 := by
  refine ⟨fun x y => ⟨Nat.le_refl 256, Nat.zero_le 256, Nat.zero_le 256⟩, rfl, by decide⟩

/-- C10 counterexample: on a 4×1 all-zero depth map with levels = 2
(strip_width = 4) and a strip whose pixel x has red channel x, the
main-pass write at x = 0 lands at column 4 with value equal to column 0,
not to the immediately preceding column 3: the claim that a zero
depth_offset copies the immediately preceding column fails. -/
theorem C10_counterexample :
    depth_offset 0 2 = 0 ∧
    (gen_autostereogram (fun x _ => (x, 0, 0)) ⟨4, 1, fun _ _ => 0⟩ 2 none).toOption.map
        (fun img => img.px (0 + strip_width 4 2) 0)
      ≠ (gen_autostereogram (fun x _ => (x, 0, 0)) ⟨4, 1, fun _ _ => 0⟩ 2 none).toOption.map
        (fun img => img.px (0 + strip_width 4 2 - 1) 0) := by
  constructor
  · decide
  · decide

/-- C10 amended: when the computed depth_offset at (x, y) is 0, the
main-pass write copies the column exactly strip_width positions back:
output[x + strip_width, y] = output[x, y] (the background-plane
repetition), not the immediately preceding column. -/
theorem C10_zero_offset_copy (rand : PixFn) (d : DepthMap) (levels : Nat)
    (tile : Option Img) (x y : Nat) (hns : 1 ≤ num_strips d.width levels)
    (htile : ∀ t, tile = some t → 0 < t.width ∧ 0 < t.height)
    (hx : x < d.width) (hy : y < d.height)
    (h0 : depth_offset (d.intensity x y) levels = 0) :
    (gen_autostereogram rand d levels tile).toOption.map
        (fun img => img.px (x + strip_width d.width levels) y)
      = (gen_autostereogram rand d levels tile).toOption.map
        (fun img => img.px x y) := by
  obtain ⟨strip, -, hgen⟩ := gen_ok rand d levels tile hns htile
  rw [hgen]
  have hcopy := synthPix_copy strip.px d.intensity levels d.width
    (strip_width d.width levels) d.height x y hx hy (by rw [h0]; omega)
  rw [h0, Nat.add_zero] at hcopy
  exact congrArg some hcopy

/-- Witness for C10 amended: 4×1 all-zero depth map, levels = 2, x = 1. -/
theorem C10_zero_offset_copy_witness :
    (gen_autostereogram (fun x _ => (x, 0, 0)) ⟨4, 1, fun _ _ => 0⟩ 2 none).toOption.map
        (fun img => img.px (1 + strip_width 4 2) 0)
      = (gen_autostereogram (fun x _ => (x, 0, 0)) ⟨4, 1, fun _ _ => 0⟩ 2 none).toOption.map
        (fun img => img.px 1 0) :=
  C10_zero_offset_copy (fun x _ => (x, 0, 0)) ⟨4, 1, fun _ _ => 0⟩ 2 none 1 0
    (by decide) (fun t h => nomatch h) (by decide) (by decide) (by decide)

end Stereogram
